import Mathlib

/-!
# SM4 accelerated cipher binding (`sm4/cipher_asm.go`)

A shallow embedding of `newCipher`, `sm4CipherAsm.Encrypt` and
`sm4CipherAsm.Decrypt`.

* Byte memory is a flat map from addresses to byte values; a Go `[]byte` is a
  base address with a length, so that aliasing between `dst` and `src` is
  visible.
* A Go `panic` is `Except.error` carrying the panic message; a normal return
  is `Except.ok`.
* The assembly routine `encryptBlocksAsm` is only declared in the Go file.
  `Encrypt` and `Decrypt` take it as a parameter `asm`; the instance described
  by the design document is `encryptBlocksAsm` below.
-/

namespace SM4

/-! ## Memory, slices and the Go builtins used by the file -/

/-- Byte-addressed memory. -/
abbrev Mem := Nat → Nat

/-- A Go byte slice: base address and length.  The capacity is left out: the
only reslicing in the file is `s[:BlockSize]` after `len(s) >= BlockSize` has
been checked, which is within capacity. -/
structure Slice where
  ptr : Nat
  len : Nat
deriving DecidableEq

/-- Reslicing `s[:n]`. -/
def Slice.upTo (s : Slice) (n : Nat) : Slice := { ptr := s.ptr, len := n }

/-- Address `a` lies inside slice `s`. -/
def Slice.has (s : Slice) (a : Nat) : Prop := s.ptr ≤ a ∧ a < s.ptr + s.len

instance (s : Slice) (a : Nat) : Decidable (s.has a) := by
  unfold Slice.has; exact inferInstance

/-- Contents of a slice, as a list of bytes. -/
def Mem.read (m : Mem) (s : Slice) : List Nat :=
  (List.range s.len).map (fun i => m (s.ptr + i))

/-- Store the bytes `bs` at consecutive addresses starting at `p`. -/
def Mem.write (m : Mem) (p : Nat) (bs : List Nat) : Mem :=
  fun a => if p ≤ a ∧ a < p + bs.length then bs.getD (a - p) 0 else m a

/-- Go `make([]byte, n)` / `make([]uint32, n)`: a fresh zeroed buffer. -/
def make (n : Nat) : List Nat := List.replicate n 0

/-- Go `copy(dst, src)` into a local buffer: the first
`min(len(dst), len(src))` elements of `dst` are replaced. -/
def goCopy (dst src : List Nat) : List Nat :=
  src.take (min dst.length src.length) ++ dst.drop (min dst.length src.length)

/-- Go `copy(dst, src)` into a slice of memory: `min(len(dst), len(src))`
bytes are stored at the start of `dst`. -/
def Mem.copyTo (m : Mem) (dst : Slice) (src : List Nat) : Mem :=
  m.write dst.ptr (src.take (min dst.len src.length))

/-- Modelled from the spec: the helper `InexactOverlap` is not part of the
file.  Two buffers overlap inexactly when they share memory without being the
identical range (the in-place case is permitted). -/
def InexactOverlap (x y : Slice) : Bool :=
  decide (0 < x.len ∧ 0 < y.len ∧ x.ptr < y.ptr + y.len ∧ y.ptr < x.ptr + x.len)
    && !(decide (x.ptr = y.ptr ∧ x.len = y.len))

/-! ## Constants and types of the package -/

/-- Modelled from the spec: the constant `BlockSize` is declared outside the
file; a block is exactly 16 bytes. -/
def BlockSize : Nat := 16

/-- Modelled from the spec: the constant `rounds` is declared outside the
file; there are 32 round keys. -/
def rounds : Nat := 32

/-- Source constant `FourBlocksSize`. -/
def FourBlocksSize : Nat := 64

/-- Modelled from the spec: the struct `sm4Cipher` is declared outside the
file; it holds the encryption and the decryption round keys. -/
structure sm4Cipher where
  enc : List Nat
  dec : List Nat
deriving DecidableEq

/-- Source struct `sm4CipherAsm`, which embeds `sm4Cipher`. -/
structure sm4CipherAsm where
  toCipher : sm4Cipher
deriving DecidableEq

/-- Promoted field `c.enc`. -/
def sm4CipherAsm.enc (c : sm4CipherAsm) : List Nat := c.toCipher.enc

/-- Promoted field `c.dec`. -/
def sm4CipherAsm.dec (c : sm4CipherAsm) : List Nat := c.toCipher.dec

/-- The type of the assembly routine `encryptBlocksAsm(xk, dst, src)`: from
the round keys at `xk` and the 64 bytes at `src` it produces the bytes stored
at `dst`. -/
abbrev AsmFn := List Nat → List Nat → List Nat

/-- The panic raised by `&s[0]` on an empty slice. -/
def indexPanic : String := "runtime error: index out of range [0] with length 0"

/-- The effect of the call `encryptBlocksAsm(&xk[0], &dst64[0], &src64[0])`
on the buffer `dst64`: taking `&xk[0]` panics on an empty key slice, and the
routine overwrites `dst64` with its output. -/
def callAsm (asm : AsmFn) (xk dst64 src64 : List Nat) : Except String (List Nat) :=
  match xk with
  | [] => .error indexPanic
  | _ :: _ => .ok (goCopy dst64 (asm xk src64))

/-- Lines 43 and 45 (60 and 62): the buffer `src64` after
`make([]byte, FourBlocksSize)` and `copy(src64, src)`. -/
def packSrc64 (m : Mem) (src : Slice) : List Nat :=
  goCopy (make FourBlocksSize) (m.read src)

/-- Source method `sm4CipherAsm.BlockSize`. -/
def sm4CipherAsm.BlockSize (_c : sm4CipherAsm) : Nat := SM4.BlockSize

/-- Source method `sm4CipherAsm.Encrypt`.  The receiver is returned next to
the memory so that writes to the instance would be visible. -/
def sm4CipherAsm.Encrypt (asm : AsmFn) (c : sm4CipherAsm) (m : Mem) (dst src : Slice) :
    Except String (sm4CipherAsm × Mem) :=
  if src.len < SM4.BlockSize then .error "sm4: input not full block"
  else if dst.len < SM4.BlockSize then .error "sm4: output not full block"
  else if InexactOverlap (dst.upTo SM4.BlockSize) (src.upTo SM4.BlockSize) then
    .error "sm4: invalid buffer overlap"
  else
    let src64 := packSrc64 m src
    let dst64 := make FourBlocksSize
    match callAsm asm c.enc dst64 src64 with
    | .error e => .error e
    | .ok dst64 => .ok (c, m.copyTo dst (dst64.take SM4.BlockSize))

/-- Source method `sm4CipherAsm.Decrypt`. -/
def sm4CipherAsm.Decrypt (asm : AsmFn) (c : sm4CipherAsm) (m : Mem) (dst src : Slice) :
    Except String (sm4CipherAsm × Mem) :=
  if src.len < SM4.BlockSize then .error "sm4: input not full block"
  else if dst.len < SM4.BlockSize then .error "sm4: output not full block"
  else if InexactOverlap (dst.upTo SM4.BlockSize) (src.upTo SM4.BlockSize) then
    .error "sm4: invalid buffer overlap"
  else
    let src64 := packSrc64 m src
    let dst64 := make FourBlocksSize
    match callAsm asm c.dec dst64 src64 with
    | .error e => .error e
    | .ok dst64 => .ok (c, m.copyTo dst (dst64.take SM4.BlockSize))

/-! ## The SM4 transform and key schedule, after the design document

The tables of the standard (S-box, system and round constants, rotation
amounts) and the matrices of the S-box isomorphism are not part of the file;
they are parameters of the model. -/

/-- Modelled from the spec: the constant tables of the package are declared
outside the file.  `sbox` is the byte substitution table, `fk` the system
constants and `ck` the round constants of the key schedule, `rotBody` and
`rotKey` the rotation amounts of the two linear transforms (each transform is
the XOR of cyclic rotations of its argument). -/
structure Tables where
  sbox : Nat → Nat
  fk : List Nat
  ck : List Nat
  rotBody : List Nat
  rotKey : List Nat

/-- Modelled from the spec: the constants of the accelerated engine live in
the assembly file.  `aIn` and `aOut` are the bit matrices (given by their
eight columns) and `cIn`, `cOut` the offsets that carry the hardware
substitution `aesSbox` to the SM4 substitution. -/
structure IsoTables where
  aesSbox : Nat → Nat
  aIn : List Nat
  aOut : List Nat
  cIn : Nat
  cOut : Nat

/-- Cyclic left rotation of a 32-bit word. -/
def rotl32 (x r : Nat) : Nat :=
  (((x % 2 ^ 32) <<< (r % 32)) ||| ((x % 2 ^ 32) >>> (32 - r % 32))) % 2 ^ 32

/-- Big-endian 32-bit word made of the four bytes at offset `i`. -/
def load32 (b : List Nat) (i : Nat) : Nat :=
  (b.getD i 0 % 256) * 2 ^ 24 + (b.getD (i + 1) 0 % 256) * 2 ^ 16
    + (b.getD (i + 2) 0 % 256) * 2 ^ 8 + b.getD (i + 3) 0 % 256

/-- The four bytes of a 32-bit word, most significant first. -/
def store32 (w : Nat) : List Nat :=
  [w / 2 ^ 24 % 256, w / 2 ^ 16 % 256, w / 2 ^ 8 % 256, w % 256]

/-- Byte-wise substitution of a word by the table `sub`. -/
def subWord (sub : Nat → Nat) (w : Nat) : Nat :=
  load32 ((store32 w).map sub) 0

/-- Linear transform: XOR of the cyclic rotations of `w` by the amounts in
`rots`. -/
def lin (rots : List Nat) (w : Nat) : Nat :=
  rots.foldl (fun acc r => acc ^^^ rotl32 w r) 0

/-- The cipher state: four 32-bit words. -/
structure Words where
  x0 : Nat
  x1 : Nat
  x2 : Nat
  x3 : Nat
deriving DecidableEq

/-- Modelled from the spec: one round (the round engines are not part of the
file).  Three words are combined with the round key, substituted byte-wise,
passed through the linear transform and XORed into the leading word; then the
four words rotate. -/
def roundStep (sub : Nat → Nat) (rots : List Nat) (s : Words) (rk : Nat) : Words :=
  { x0 := s.x1, x1 := s.x2, x2 := s.x3,
    x3 := s.x0 ^^^ lin rots (subWord sub (s.x1 ^^^ s.x2 ^^^ s.x3 ^^^ rk)) }

/-- Modelled from the spec: the 32-round transform of one block, ending with
the reversal of the four words.  Decryption is the same transform run with
the decryption keys. -/
def cryptBlock (sub : Nat → Nat) (rots : List Nat) (xk block : List Nat) : List Nat :=
  let s0 : Words :=
    { x0 := load32 block 0, x1 := load32 block 4, x2 := load32 block 8, x3 := load32 block 12 }
  let s := (List.range rounds).foldl (fun s i => roundStep sub rots s (xk.getD i 0)) s0
  store32 s.x3 ++ store32 s.x2 ++ store32 s.x1 ++ store32 s.x0

/-- Product of the bit matrix with columns `cols` and the bit vector `x`. -/
def matApply (cols : List Nat) (x : Nat) : Nat :=
  (List.range 8).foldl (fun acc j => if x.testBit j then acc ^^^ cols.getD j 0 else acc) 0

/-- Modelled from the spec: the substitution step of the accelerated engine,
`A_out(AES_Sbox(A_in(x) + c_in)) + c_out`, where the sum of bit vectors is
XOR. -/
def accSub (iso : IsoTables) (x : Nat) : Nat :=
  matApply iso.aOut (iso.aesSbox ((matApply iso.aIn x ^^^ iso.cIn) % 256) % 256) ^^^ iso.cOut

/-- Lane `j` of a four-block buffer. -/
def lane (buf : List Nat) (j : Nat) : List Nat := (buf.drop (16 * j)).take 16

/-- Modelled from the spec: the assembly routine `encryptBlocksAsm` is only
declared in the file.  It runs the 32 rounds and the final word reversal on
the four blocks held in the four lanes of the 64-byte source, with the
substitution computed through the hardware S-box. -/
def encryptBlocksAsm (tb : Tables) (iso : IsoTables) : AsmFn := fun xk src =>
  cryptBlock (accSub iso) tb.rotBody xk (lane src 0)
    ++ cryptBlock (accSub iso) tb.rotBody xk (lane src 1)
    ++ cryptBlock (accSub iso) tb.rotBody xk (lane src 2)
    ++ cryptBlock (accSub iso) tb.rotBody xk (lane src 3)

/-- The round keys produced from the state `s` by the remaining round
constants. -/
def expandFrom (tb : Tables) (s : Words) : List Nat → List Nat
  | [] => []
  | c :: cs =>
    (roundStep tb.sbox tb.rotKey s c).x3 :: expandFrom tb (roundStep tb.sbox tb.rotKey s c) cs

/-- Modelled from the spec: the 32 encryption round keys.  The key is XORed
with the system constants to seed the state; each of the 32 iterations
combines three state words with a round constant through the substitution and
the key-schedule linear transform and yields one round key. -/
def roundKeys (tb : Tables) (key : List Nat) : List Nat :=
  expandFrom tb
    { x0 := load32 key 0 ^^^ tb.fk.getD 0 0, x1 := load32 key 4 ^^^ tb.fk.getD 1 0,
      x2 := load32 key 8 ^^^ tb.fk.getD 2 0, x3 := load32 key 12 ^^^ tb.fk.getD 3 0 }
    ((List.range rounds).map (fun i => tb.ck.getD i 0))

/-- Modelled from the spec: the key schedule `expandKeyGo(key, enc, dec)` is
not part of the file.  A key that is not 16 bytes long is a programming error
and fails fast; otherwise the round keys are stored in `enc` and, in reverse
order, in `dec`. -/
def expandKeyGo (tb : Tables) (key enc dec : List Nat) : Except String (List Nat × List Nat) :=
  if key.length ≠ 16 then .error "sm4: invalid key size"
  else .ok (goCopy enc (roundKeys tb key), goCopy dec (roundKeys tb key).reverse)

/-- Modelled from the spec: the generic single-block routines are not part of
the file; they run the round engine on the first 16 bytes of `src`. -/
def encryptBlockGo (tb : Tables) (xk : List Nat) (m : Mem) (dst src : Slice) : Mem :=
  m.copyTo (dst.upTo SM4.BlockSize)
    (cryptBlock tb.sbox tb.rotBody xk (m.read (src.upTo SM4.BlockSize)))

/-- Modelled from the spec: the generic `sm4Cipher.Encrypt` is not part of
the file.  It has the same preconditions as the accelerated method and calls
the generic round engine directly on the first 16 bytes. -/
def sm4Cipher.Encrypt (tb : Tables) (c : sm4Cipher) (m : Mem) (dst src : Slice) :
    Except String (sm4Cipher × Mem) :=
  if src.len < SM4.BlockSize then .error "sm4: input not full block"
  else if dst.len < SM4.BlockSize then .error "sm4: output not full block"
  else if InexactOverlap (dst.upTo SM4.BlockSize) (src.upTo SM4.BlockSize) then
    .error "sm4: invalid buffer overlap"
  else .ok (c, encryptBlockGo tb c.enc m dst src)

/-- Modelled from the spec: the generic `sm4Cipher.Decrypt` is not part of
the file; it is the generic `Encrypt` with the decryption keys. -/
def sm4Cipher.Decrypt (tb : Tables) (c : sm4Cipher) (m : Mem) (dst src : Slice) :
    Except String (sm4Cipher × Mem) :=
  if src.len < SM4.BlockSize then .error "sm4: input not full block"
  else if dst.len < SM4.BlockSize then .error "sm4: output not full block"
  else if InexactOverlap (dst.upTo SM4.BlockSize) (src.upTo SM4.BlockSize) then
    .error "sm4: invalid buffer overlap"
  else .ok (c, encryptBlockGo tb c.dec m dst src)

/-! ## Construction and the block interface -/

/-- The interface `cipher.Block`, closed over the two implementations of the
package. -/
inductive Block where
  | generic (c : sm4Cipher)
  | asm (c : sm4CipherAsm)
deriving DecidableEq

/-- A Go `error` value. -/
abbrev GoError := String

/-- Modelled from the spec: `newCipherGeneric` is not part of the file.  It
runs the key schedule and binds the instance to the generic engine. -/
def newCipherGeneric (tb : Tables) (key : List Nat) :
    Except String (Option Block × Option GoError) :=
  match expandKeyGo tb key (make rounds) (make rounds) with
  | .error e => .error e
  | .ok (enc, dec) => .ok (some (Block.generic { enc := enc, dec := dec }), none)

/-- Source function `newCipher`; the package variable `supportsAES` is an
argument. -/
def newCipher (tb : Tables) (supportsAES : Bool) (key : List Nat) :
    Except String (Option Block × Option GoError) :=
  if !supportsAES then newCipherGeneric tb key
  else
    let c : sm4CipherAsm := { toCipher := { enc := make rounds, dec := make rounds } }
    match expandKeyGo tb key c.enc c.dec with
    | .error e => .error e
    | .ok (enc, dec) => .ok (some (Block.asm { toCipher := { enc := enc, dec := dec } }), none)

/-- Interface call `b.Encrypt(dst, src)`. -/
def Block.Encrypt (tb : Tables) (iso : IsoTables) (b : Block) (m : Mem) (dst src : Slice) :
    Except String (Block × Mem) :=
  match b with
  | .generic c =>
    match c.Encrypt tb m dst src with
    | .error e => .error e
    | .ok (c, m) => .ok (.generic c, m)
  | .asm c =>
    match c.Encrypt (encryptBlocksAsm tb iso) m dst src with
    | .error e => .error e
    | .ok (c, m) => .ok (.asm c, m)

/-- Interface call `b.Decrypt(dst, src)`. -/
def Block.Decrypt (tb : Tables) (iso : IsoTables) (b : Block) (m : Mem) (dst src : Slice) :
    Except String (Block × Mem) :=
  match b with
  | .generic c =>
    match c.Decrypt tb m dst src with
    | .error e => .error e
    | .ok (c, m) => .ok (.generic c, m)
  | .asm c =>
    match c.Decrypt (encryptBlocksAsm tb iso) m dst src with
    | .error e => .error e
    | .ok (c, m) => .ok (.asm c, m)

/-! ## Auxiliary definitions for the statements -/

/-- A call outcome is a panic. -/
def panics {α : Type} (r : Except String α) : Bool :=
  match r with
  | .error _ => true
  | .ok _ => false

/-- The common body of `Encrypt` and `Decrypt`, with the round keys `xk`
handed to the assembly routine. -/
def blockCall (asm : AsmFn) (xk : List Nat) (m : Mem) (dst src : Slice) : Except String Mem :=
  if src.len < 16 then .error "sm4: input not full block"
  else if dst.len < 16 then .error "sm4: output not full block"
  else if InexactOverlap (dst.upTo 16) (src.upTo 16) then .error "sm4: invalid buffer overlap"
  else match xk with
    | [] => .error indexPanic
    | _ :: _ =>
      .ok (m.copyTo dst ((goCopy (make 64) (asm xk (packSrc64 m src))).take 16))

/-- The instance with the two key sets exchanged. -/
def sm4CipherAsm.mirror (c : sm4CipherAsm) : sm4CipherAsm :=
  { toCipher := { enc := c.dec, dec := c.enc } }

/-- The effect of a single-block call that runs the block transform with the
substitution `sub` on the leading block of `src`. -/
def blockResult (sub : Nat → Nat) (rots xk : List Nat) (m : Mem) (dst src : Slice) :
    Except String Mem :=
  if src.len < 16 then .error "sm4: input not full block"
  else if dst.len < 16 then .error "sm4: output not full block"
  else if InexactOverlap (dst.upTo 16) (src.upTo 16) then .error "sm4: invalid buffer overlap"
  else .ok (m.write dst.ptr (cryptBlock sub rots xk (m.read (src.upTo 16))))

/-- The four words in reverse order. -/
def Words.rev (s : Words) : Words := { x0 := s.x3, x1 := s.x2, x2 := s.x1, x3 := s.x0 }

/-- All four words fit in 32 bits. -/
def Words.bounded (s : Words) : Prop :=
  s.x0 < 2 ^ 32 ∧ s.x1 < 2 ^ 32 ∧ s.x2 < 2 ^ 32 ∧ s.x3 < 2 ^ 32

/-! ## Sample inputs -/

/-- Sample constant tables. -/
def sampleTables : Tables :=
  { sbox := fun x => (x * 7 + 3) % 256
    fk := [0xa3b1bac6, 0x56aa3350, 0x677d9197, 0xb27022dc]
    ck := (List.range 32).map (fun i =>
      load32 [4 * i * 7, (4 * i + 1) * 7, (4 * i + 2) * 7, (4 * i + 3) * 7] 0)
    rotBody := [0, 2, 10, 18, 24]
    rotKey := [0, 13, 23] }

/-- Sample isomorphism constants: identity matrices, input offset `0x5a`, and
a hardware table that equals the sample S-box shifted by that offset. -/
def sampleIso : IsoTables :=
  { aesSbox := fun y => ((y ^^^ 0x5a) * 7 + 3) % 256
    aIn := [1, 2, 4, 8, 16, 32, 64, 128]
    aOut := [1, 2, 4, 8, 16, 32, 64, 128]
    cIn := 0x5a
    cOut := 0 }

/-- A sample 16-byte key. -/
def sampleKey : List Nat :=
  [0x01, 0x23, 0x45, 0x67, 0x89, 0xab, 0xcd, 0xef, 0xfe, 0xdc, 0xba, 0x98, 0x76, 0x54, 0x32, 0x10]

/-- The accelerated instance built from the sample key. -/
def sampleCipher : sm4CipherAsm :=
  { toCipher := { enc := roundKeys sampleTables sampleKey,
                  dec := (roundKeys sampleTables sampleKey).reverse } }

/-- A sample memory; its contents are byte values. -/
def sampleMem : Mem := fun a => (a * 37 + 11) % 256

/-- A probe standing for the assembly routine: it returns lane 1 of its
source buffer in lane 0. -/
def probeLane1 : AsmFn := fun _ src => lane src 1 ++ List.replicate 48 0

/-! ## Basic facts about memory and the builtins -/

theorem goCopy_length (d s : List Nat) : (goCopy d s).length = d.length := by
  simp only [goCopy, List.length_append, List.length_take, List.length_drop]
  omega

theorem make_length (n : Nat) : (make n).length = n := by simp [make]

theorem goCopy_full (d s : List Nat) (h : s.length = d.length) : goCopy d s = s := by
  simp [goCopy, h]

theorem Mem.write_inside (m : Mem) (p : Nat) (bs : List Nat) (i : Nat) (h : i < bs.length) :
    m.write p bs (p + i) = bs.getD i 0 := by
  have h1 : p ≤ p + i ∧ p + i < p + bs.length := ⟨by omega, by omega⟩
  simp [Mem.write, h1]

theorem Mem.write_outside (m : Mem) (p : Nat) (bs : List Nat) (a : Nat)
    (h : ¬ (p ≤ a ∧ a < p + bs.length)) : m.write p bs a = m a := by
  simp only [Mem.write, if_neg h]

theorem Mem.read_length (m : Mem) (s : Slice) : (m.read s).length = s.len := by
  simp [Mem.read]

theorem Mem.read_getD (m : Mem) (s : Slice) (i : Nat) (h : i < s.len) :
    (m.read s).getD i 0 = m (s.ptr + i) := by
  simp [Mem.read, List.getD_eq_getElem?_getD, List.getElem?_map, List.getElem?_range h]

theorem Mem.read_take (m : Mem) (s : Slice) (n : Nat) (h : n ≤ s.len) :
    (m.read s).take n = m.read (s.upTo n) := by
  simp only [Mem.read, Slice.upTo, ← List.map_take]
  congr 1
  simp [List.take_range, Nat.min_eq_left h]

theorem Mem.read_congr (m1 m2 : Mem) (s1 s2 : Slice) (hl : s1.len = s2.len)
    (h : ∀ i, i < s1.len → m1 (s1.ptr + i) = m2 (s2.ptr + i)) : m1.read s1 = m2.read s2 := by
  simp only [Mem.read, ← hl]
  apply List.map_congr_left
  intro i hi
  exact h i (List.mem_range.mp hi)

theorem lane_zero (buf : List Nat) : lane buf 0 = buf.take 16 := by simp [lane]

theorem packSrc64_take (m : Mem) (src : Slice) (h : 16 ≤ src.len) :
    (packSrc64 m src).take 16 = m.read (src.upTo 16) := by
  have hl : (m.read src).length = src.len := Mem.read_length m src
  have h16 : 16 ≤ min (make FourBlocksSize).length (m.read src).length := by
    simp [make_length, FourBlocksSize, hl]; omega
  simp only [packSrc64, goCopy]
  rw [List.take_append_of_le_length (by simp only [List.length_take]; omega)]
  rw [List.take_take, Nat.min_eq_left h16]
  exact Mem.read_take m src 16 h

/-! ## The two methods in terms of their common body -/

theorem Encrypt_eq_blockCall (asm : AsmFn) (c : sm4CipherAsm) (m : Mem) (dst src : Slice) :
    c.Encrypt asm m dst src = (blockCall asm c.enc m dst src).map (fun m1 => (c, m1)) := by
  unfold sm4CipherAsm.Encrypt blockCall callAsm
  simp only [BlockSize, FourBlocksSize]
  split_ifs <;> try rfl
  cases c.enc <;> rfl

theorem Decrypt_eq_blockCall (asm : AsmFn) (c : sm4CipherAsm) (m : Mem) (dst src : Slice) :
    c.Decrypt asm m dst src = (blockCall asm c.dec m dst src).map (fun m1 => (c, m1)) := by
  unfold sm4CipherAsm.Decrypt blockCall callAsm
  simp only [BlockSize, FourBlocksSize]
  split_ifs <;> try rfl
  cases c.dec <;> rfl

theorem inexactOverlap_iff (x y : Slice) :
    InexactOverlap (x.upTo 16) (y.upTo 16) = true ↔
      (∃ a, (x.upTo 16).has a ∧ (y.upTo 16).has a) ∧ x.ptr ≠ y.ptr := by
  simp only [InexactOverlap, Slice.upTo, Slice.has, Bool.and_eq_true, decide_eq_true_eq,
    Bool.not_eq_true', decide_eq_false_iff_not]
  constructor
  · rintro ⟨⟨_, _, h1, h2⟩, h3⟩
    refine ⟨⟨max x.ptr y.ptr, ?_⟩, fun h => h3 ⟨h, trivial⟩⟩
    omega
  · rintro ⟨⟨a, h⟩, h3⟩
    refine ⟨⟨by omega, by omega, by omega, by omega⟩, fun h => h3 h.1⟩

theorem blockCall_panics_iff (asm : AsmFn) (xk : List Nat) (hx : xk ≠ []) (m : Mem)
    (dst src : Slice) :
    panics (blockCall asm xk m dst src) = true ↔
      (src.len < 16 ∨ dst.len < 16 ∨
        ((∃ a, (dst.upTo 16).has a ∧ (src.upTo 16).has a) ∧ dst.ptr ≠ src.ptr)) := by
  rw [← inexactOverlap_iff]
  unfold blockCall
  cases xk with
  | nil => exact absurd rfl hx
  | cons k ks =>
    by_cases h1 : src.len < 16
    · simp [h1, panics]
    · by_cases h2 : dst.len < 16
      · simp [h1, h2, panics]
      · cases h3 : InexactOverlap (dst.upTo 16) (src.upTo 16) <;> simp [h1, h2, h3, panics]

theorem blockCall_ok (asm : AsmFn) (xk : List Nat) (hx : xk ≠ []) (m : Mem) (dst src : Slice)
    (hs : 16 ≤ src.len) (hd : 16 ≤ dst.len)
    (ho : InexactOverlap (dst.upTo 16) (src.upTo 16) = false) :
    blockCall asm xk m dst src
      = .ok (m.copyTo dst ((goCopy (make 64) (asm xk (packSrc64 m src))).take 16)) := by
  unfold blockCall
  cases xk with
  | nil => exact absurd rfl hx
  | cons k ks => simp [Nat.not_lt.mpr hs, Nat.not_lt.mpr hd, ho]

theorem blockCall_frame (asm : AsmFn) (xk : List Nat) (m m1 : Mem) (dst src : Slice)
    (h : blockCall asm xk m dst src = .ok m1) (a : Nat) (ha : ¬ (dst.upTo 16).has a) :
    m1 a = m a := by
  unfold blockCall at h
  split_ifs at h
  cases xk with
  | nil => simp at h
  | cons k ks =>
    simp only [Except.ok.injEq] at h
    subst h
    apply Mem.write_outside
    simp only [Slice.has, Slice.upTo] at ha
    simp only [List.length_take, goCopy_length, make_length]
    omega

theorem panics_map {α β : Type} (r : Except String α) (f : α → β) :
    panics (r.map f) = panics r := by
  cases r <;> rfl

/-! ## Key schedule facts -/

theorem expandFrom_length (tb : Tables) (s : Words) (cs : List Nat) :
    (expandFrom tb s cs).length = cs.length := by
  induction cs generalizing s with
  | nil => rfl
  | cons c cs ih => simp [expandFrom, ih]

theorem roundKeys_length (tb : Tables) (key : List Nat) : (roundKeys tb key).length = 32 := by
  simp [roundKeys, expandFrom_length, rounds]

theorem expandKeyGo_ok (tb : Tables) (key : List Nat) (h : key.length = 16) :
    expandKeyGo tb key (make rounds) (make rounds)
      = .ok (roundKeys tb key, (roundKeys tb key).reverse) := by
  simp only [expandKeyGo, h, ne_eq, not_true_eq_false, if_false]
  rw [goCopy_full, goCopy_full]
  · simp [make_length, roundKeys_length, rounds]
  · simp [make_length, roundKeys_length, rounds]

theorem expandKeyGo_panic (tb : Tables) (key e d : List Nat) (h : key.length ≠ 16) :
    expandKeyGo tb key e d = .error "sm4: invalid key size" := by
  simp [expandKeyGo, h]

theorem newCipher_asm_ok (tb : Tables) (key : List Nat) (h : key.length = 16) :
    newCipher tb true key
      = .ok (some (Block.asm { toCipher := { enc := roundKeys tb key,
                                               dec := (roundKeys tb key).reverse } }), none) := by
  simp only [newCipher, sm4CipherAsm.enc, sm4CipherAsm.dec, Bool.not_true, Bool.false_eq_true,
    if_false]
  rw [expandKeyGo_ok tb key h]

theorem newCipher_generic_ok (tb : Tables) (key : List Nat) (h : key.length = 16) :
    newCipher tb false key
      = .ok (some (Block.generic { enc := roundKeys tb key,
                                   dec := (roundKeys tb key).reverse }), none) := by
  simp only [newCipher, newCipherGeneric, Bool.not_false, if_true]
  rw [expandKeyGo_ok tb key h]

theorem newCipher_asm_inv (tb : Tables) (key : List Nat) (c : sm4CipherAsm)
    (h : newCipher tb true key = .ok (some (Block.asm c), none)) :
    key.length = 16 ∧ c.enc = roundKeys tb key ∧ c.dec = (roundKeys tb key).reverse := by
  by_cases hk : key.length = 16
  · rw [newCipher_asm_ok tb key hk] at h
    simp only [Except.ok.injEq, Prod.mk.injEq, Option.some.injEq, Block.asm.injEq, and_true] at h
    subst h
    exact ⟨hk, rfl, rfl⟩
  · simp [newCipher, sm4CipherAsm.enc, sm4CipherAsm.dec, expandKeyGo_panic tb key _ _ hk] at h

theorem ne_nil_of_length_32 (l : List Nat) (h : l.length = 32) : l ≠ [] := by
  intro hl; simp [hl] at h

/-! ## Words and bytes -/

theorem load32_lt (b : List Nat) (i : Nat) : load32 b i < 2 ^ 32 := by
  unfold load32
  omega

theorem lin_lt (rots : List Nat) (w : Nat) : lin rots w < 2 ^ 32 := by
  unfold lin
  suffices h : ∀ acc, acc < 2 ^ 32 →
      rots.foldl (fun acc r => acc ^^^ rotl32 w r) acc < 2 ^ 32 from h 0 (by norm_num)
  induction rots with
  | nil => intro acc h; simpa using h
  | cons r rs ih =>
    intro acc h
    simp only [List.foldl_cons]
    apply ih
    apply Nat.xor_lt_two_pow h
    unfold rotl32
    exact Nat.mod_lt _ (by norm_num)

theorem load32_store32 (a b c d : Nat) :
    load32 (store32 a ++ store32 b ++ store32 c ++ store32 d) 0 = a % 2 ^ 32
    ∧ load32 (store32 a ++ store32 b ++ store32 c ++ store32 d) 4 = b % 2 ^ 32
    ∧ load32 (store32 a ++ store32 b ++ store32 c ++ store32 d) 8 = c % 2 ^ 32
    ∧ load32 (store32 a ++ store32 b ++ store32 c ++ store32 d) 12 = d % 2 ^ 32 := by
  simp only [store32, load32, List.cons_append, List.nil_append, List.getD_cons_zero,
    List.getD_cons_succ]
  refine ⟨?_, ?_, ?_, ?_⟩ <;> omega

theorem list_eq_map_getD (b : List Nat) :
    b = (List.range b.length).map (fun i => b.getD i 0) := by
  apply List.ext_getElem
  · simp
  · intro i h1 h2
    simp [List.getD_eq_getElem?_getD, List.getElem?_eq_getElem h1]

theorem store32_load32_fn (f : Nat → Nat) (hf : ∀ i, i < 16 → f i < 256) :
    store32 (load32 ((List.range 16).map f) 0) ++ store32 (load32 ((List.range 16).map f) 4)
      ++ store32 (load32 ((List.range 16).map f) 8)
      ++ store32 (load32 ((List.range 16).map f) 12) = (List.range 16).map f := by
  have hr : (List.range 16).map f
      = [f 0, f 1, f 2, f 3, f 4, f 5, f 6, f 7, f 8, f 9, f 10, f 11, f 12, f 13, f 14, f 15] :=
    rfl
  rw [hr]
  have h0 := hf 0 (by norm_num)
  have h1 := hf 1 (by norm_num)
  have h2 := hf 2 (by norm_num)
  have h3 := hf 3 (by norm_num)
  have h4 := hf 4 (by norm_num)
  have h5 := hf 5 (by norm_num)
  have h6 := hf 6 (by norm_num)
  have h7 := hf 7 (by norm_num)
  have h8 := hf 8 (by norm_num)
  have h9 := hf 9 (by norm_num)
  have h10 := hf 10 (by norm_num)
  have h11 := hf 11 (by norm_num)
  have h12 := hf 12 (by norm_num)
  have h13 := hf 13 (by norm_num)
  have h14 := hf 14 (by norm_num)
  have h15 := hf 15 (by norm_num)
  simp only [store32, load32, List.cons_append, List.nil_append, List.getD_cons_zero,
    List.getD_cons_succ, List.cons.injEq, and_true]
  refine ⟨?_, ?_, ?_, ?_, ?_, ?_, ?_, ?_, ?_, ?_, ?_, ?_, ?_, ?_, ?_, ?_⟩ <;> omega

theorem store32_load32_block (b : List Nat) (hb : b.length = 16) (hx : ∀ x ∈ b, x < 256) :
    store32 (load32 b 0) ++ store32 (load32 b 4) ++ store32 (load32 b 8)
      ++ store32 (load32 b 12) = b := by
  have h := list_eq_map_getD b
  rw [hb] at h
  have hf : ∀ i, i < 16 → b.getD i 0 < 256 := by
    intro i hi
    have hi2 : i < b.length := by omega
    rw [List.getD_eq_getElem?_getD, List.getElem?_eq_getElem hi2]
    exact hx _ (List.getElem_mem hi2)
  have := store32_load32_fn (fun i => b.getD i 0) hf
  rw [← h] at this
  exact this

/-! ## The round structure is an involution up to word reversal -/

theorem roundStep_rev (sub : Nat → Nat) (rots : List Nat) (s : Words) (k : Nat) :
    roundStep sub rots (roundStep sub rots s k).rev k = s.rev := by
  have hx : s.x3 ^^^ s.x2 ^^^ s.x1 ^^^ k = s.x1 ^^^ s.x2 ^^^ s.x3 ^^^ k := by
    rw [Nat.xor_comm s.x3 s.x2, Nat.xor_assoc s.x2 s.x3 s.x1, Nat.xor_comm s.x2,
      Nat.xor_comm s.x3 s.x1, Nat.xor_assoc s.x1 s.x3 s.x2, Nat.xor_comm s.x3 s.x2,
      ← Nat.xor_assoc s.x1 s.x2 s.x3]
  simp only [roundStep, Words.rev]
  rw [hx, Nat.xor_assoc s.x0, Nat.xor_self, Nat.xor_zero]

theorem foldl_roundStep_rev (sub : Nat → Nat) (rots : List Nat) (ks : List Nat) (s : Words) :
    ks.reverse.foldl (roundStep sub rots) (ks.foldl (roundStep sub rots) s).rev = s.rev := by
  induction ks generalizing s with
  | nil => rfl
  | cons k ks ih =>
    simp only [List.foldl_cons, List.reverse_cons, List.foldl_append, List.foldl_nil]
    rw [ih, roundStep_rev]

theorem roundStep_bounded (sub : Nat → Nat) (rots : List Nat) (s : Words) (k : Nat)
    (h : s.bounded) : (roundStep sub rots s k).bounded := by
  obtain ⟨h0, h1, h2, h3⟩ := h
  exact ⟨h1, h2, h3, Nat.xor_lt_two_pow h0 (lin_lt _ _)⟩

theorem foldl_roundStep_bounded (sub : Nat → Nat) (rots : List Nat) (ks : List Nat) (s : Words)
    (h : s.bounded) : (ks.foldl (roundStep sub rots) s).bounded := by
  induction ks generalizing s with
  | nil => exact h
  | cons k ks ih => exact ih _ (roundStep_bounded sub rots s k h)

theorem range_foldl_getD (f : Words → Nat → Words) (xk : List Nat) (s : Words) :
    (List.range xk.length).foldl (fun s i => f s (xk.getD i 0)) s = xk.foldl f s := by
  conv_rhs => rw [list_eq_map_getD xk]
  rw [List.foldl_map]

/-- The block transform on the word state, with the rounds folded over the
key list. -/
theorem cryptBlock_eq (sub : Nat → Nat) (rots : List Nat) (xk b : List Nat)
    (hx : xk.length = 32) :
    cryptBlock sub rots xk b
      = (let s := (xk.foldl (roundStep sub rots)
            { x0 := load32 b 0, x1 := load32 b 4, x2 := load32 b 8, x3 := load32 b 12 })
         store32 s.x3 ++ store32 s.x2 ++ store32 s.x1 ++ store32 s.x0) := by
  have h := range_foldl_getD (roundStep sub rots) xk
  rw [hx] at h
  simp only [cryptBlock, rounds, h]

theorem cryptBlock_length (sub : Nat → Nat) (rots : List Nat) (xk b : List Nat) :
    (cryptBlock sub rots xk b).length = 16 := by
  simp [cryptBlock, store32]

theorem cryptBlock_inv (sub : Nat → Nat) (rots : List Nat) (xk b : List Nat)
    (hx : xk.length = 32) (hb : b.length = 16) (hbytes : ∀ x ∈ b, x < 256) :
    cryptBlock sub rots xk.reverse (cryptBlock sub rots xk b) = b := by
  rw [cryptBlock_eq sub rots xk b hx,
    cryptBlock_eq sub rots xk.reverse _ (by rw [List.length_reverse]; exact hx)]
  simp only []
  set s0 : Words :=
    { x0 := load32 b 0, x1 := load32 b 4, x2 := load32 b 8, x3 := load32 b 12 } with hs0
  set s := xk.foldl (roundStep sub rots) s0 with hs
  have hbd : s.bounded :=
    foldl_roundStep_bounded sub rots xk s0 ⟨load32_lt _ _, load32_lt _ _, load32_lt _ _, load32_lt _ _⟩
  obtain ⟨b0, b1, b2, b3⟩ := hbd
  obtain ⟨l0, l1, l2, l3⟩ := load32_store32 s.x3 s.x2 s.x1 s.x0
  rw [l0, l1, l2, l3, Nat.mod_eq_of_lt b0, Nat.mod_eq_of_lt b1, Nat.mod_eq_of_lt b2,
    Nat.mod_eq_of_lt b3]
  have hrev : ({ x0 := s.x3, x1 := s.x2, x2 := s.x1, x3 := s.x0 } : Words) = s.rev := rfl
  rw [hrev, hs, foldl_roundStep_rev]
  simp only [Words.rev, hs0]
  exact store32_load32_block b hb hbytes

/-! ## The accelerated and the generic call as block transforms -/

theorem copyTo_block (m : Mem) (dst : Slice) (bs : List Nat) (hb : bs.length = 16)
    (hd : 16 ≤ dst.len) : m.copyTo dst bs = m.write dst.ptr bs := by
  simp only [Mem.copyTo, hb, Nat.min_eq_right hd]
  rw [List.take_of_length_le (by omega)]

theorem asm_lane0 (tb : Tables) (iso : IsoTables) (xk s : List Nat) :
    (goCopy (make 64) (encryptBlocksAsm tb iso xk s)).take 16
      = cryptBlock (accSub iso) tb.rotBody xk (lane s 0) := by
  rw [goCopy_full]
  · simp only [encryptBlocksAsm, List.append_assoc]
    rw [List.take_append_of_le_length (by rw [cryptBlock_length])]
    exact List.take_of_length_le (by rw [cryptBlock_length])
  · simp [encryptBlocksAsm, cryptBlock_length, make_length]

theorem blockCall_asm (tb : Tables) (iso : IsoTables) (xk : List Nat) (hx : xk ≠ []) (m : Mem)
    (dst src : Slice) :
    blockCall (encryptBlocksAsm tb iso) xk m dst src
      = blockResult (accSub iso) tb.rotBody xk m dst src := by
  unfold blockCall blockResult
  cases xk with
  | nil => exact absurd rfl hx
  | cons k ks =>
    split_ifs with h1 h2 h3 <;> try rfl
    simp only [Except.ok.injEq]
    rw [asm_lane0, lane_zero, packSrc64_take m src (by omega)]
    exact copyTo_block m dst _ (cryptBlock_length _ _ _ _) (by omega)

theorem generic_Encrypt_eq (tb : Tables) (c : sm4Cipher) (m : Mem) (dst src : Slice) :
    c.Encrypt tb m dst src
      = (blockResult tb.sbox tb.rotBody c.enc m dst src).map (fun m1 => (c, m1)) := by
  unfold sm4Cipher.Encrypt blockResult encryptBlockGo
  simp only [BlockSize]
  split_ifs <;> rfl

theorem generic_Decrypt_eq (tb : Tables) (c : sm4Cipher) (m : Mem) (dst src : Slice) :
    c.Decrypt tb m dst src
      = (blockResult tb.sbox tb.rotBody c.dec m dst src).map (fun m1 => (c, m1)) := by
  unfold sm4Cipher.Decrypt blockResult encryptBlockGo
  simp only [BlockSize]
  split_ifs <;> rfl

theorem blockResult_ok (sub : Nat → Nat) (rots xk : List Nat) (m : Mem) (dst src : Slice)
    (hs : 16 ≤ src.len) (hd : 16 ≤ dst.len)
    (ho : InexactOverlap (dst.upTo 16) (src.upTo 16) = false) :
    blockResult sub rots xk m dst src
      = .ok (m.write dst.ptr (cryptBlock sub rots xk (m.read (src.upTo 16)))) := by
  simp [blockResult, Nat.not_lt.mpr hs, Nat.not_lt.mpr hd, ho]

/-! ## Congruence in the substitution table -/

theorem subWord_congr (f g : Nat → Nat) (h : ∀ x, x < 256 → f x = g x) (w : Nat) :
    subWord f w = subWord g w := by
  simp only [subWord, store32, List.map_cons, List.map_nil]
  rw [h _ (Nat.mod_lt _ (by norm_num)), h _ (Nat.mod_lt _ (by norm_num)),
    h _ (Nat.mod_lt _ (by norm_num)), h _ (Nat.mod_lt _ (by norm_num))]

theorem cryptBlock_congr (f g : Nat → Nat) (h : ∀ x, x < 256 → f x = g x) (rots xk b : List Nat) :
    cryptBlock f rots xk b = cryptBlock g rots xk b := by
  have hr : roundStep f rots = roundStep g rots := by
    funext s k
    simp only [roundStep, subWord_congr f g h]
  simp only [cryptBlock, hr]

theorem blockResult_congr (f g : Nat → Nat) (h : ∀ x, x < 256 → f x = g x) (rots xk : List Nat)
    (m : Mem) (dst src : Slice) :
    blockResult f rots xk m dst src = blockResult g rots xk m dst src := by
  simp only [blockResult, cryptBlock_congr f g h]

/-! ## Reading back what a call wrote -/

theorem read_write_block (m : Mem) (s : Slice) (bs : List Nat) (hb : bs.length = 16) :
    (m.write s.ptr bs).read (s.upTo 16) = bs := by
  apply List.ext_getElem
  · simp [Mem.read_length, Slice.upTo, hb]
  · intro i h1 h2
    have hi : i < 16 := by simpa [Mem.read_length, Slice.upTo] using h1
    have hg := Mem.read_getD (m.write s.ptr bs) (s.upTo 16) i (by simpa [Slice.upTo] using hi)
    rw [List.getD_eq_getElem?_getD, List.getElem?_eq_getElem h1] at hg
    simp only [Option.getD_some] at hg
    rw [hg]
    simp only [Slice.upTo]
    rw [Mem.write_inside m s.ptr bs i h2, List.getD_eq_getElem?_getD,
      List.getElem?_eq_getElem h2]
    rfl

theorem blockResult_round_trip (sub : Nat → Nat) (rots xk : List Nat) (hx : xk.length = 32)
    (m : Mem) (src mid out : Slice) (hs : 16 ≤ src.len) (hm : 16 ≤ mid.len) (ho : 16 ≤ out.len)
    (h1 : InexactOverlap (mid.upTo 16) (src.upTo 16) = false)
    (h2 : InexactOverlap (out.upTo 16) (mid.upTo 16) = false)
    (hb : ∀ i, i < 16 → m (src.ptr + i) < 256) :
    ∃ m1 m2, blockResult sub rots xk m mid src = .ok m1
      ∧ blockResult sub rots xk.reverse m1 out mid = .ok m2
      ∧ ∀ i, i < 16 → m2 (out.ptr + i) = m (src.ptr + i) := by
  refine ⟨_, _, blockResult_ok sub rots xk m mid src hs hm h1,
    blockResult_ok sub rots xk.reverse _ out mid hm ho h2, ?_⟩
  intro i hi
  rw [read_write_block m mid _ (cryptBlock_length _ _ _ _)]
  have hlen : (m.read (src.upTo 16)).length = 16 := by simp [Mem.read_length, Slice.upTo]
  have hbytes : ∀ x ∈ m.read (src.upTo 16), x < 256 := by
    intro x hx
    simp only [Mem.read, Slice.upTo, List.mem_map, List.mem_range] at hx
    obtain ⟨j, hj, rfl⟩ := hx
    exact hb j hj
  rw [cryptBlock_inv sub rots xk _ hx hlen hbytes]
  rw [Mem.write_inside _ _ _ i (by rw [hlen]; exact hi)]
  exact Mem.read_getD m (src.upTo 16) i (by simpa [Slice.upTo] using hi)

/-! ## The claims -/

/-- C3: for an instance built by `newCipher` on the accelerated path and any
buffers, `Encrypt` panics exactly when `len(src) < 16`, or `len(dst) < 16`, or
`dst[0:16]` and `src[0:16]` share an address without starting at the same
address; the same holds for `Decrypt`; in every other case both calls return
normally. -/
theorem misuse_fault_iff (tb : Tables) (key : List Nat) (c : sm4CipherAsm)
    (hc : newCipher tb true key = .ok (some (Block.asm c), none))
    (asm : AsmFn) (m : Mem) (dst src : Slice) :
    (panics (c.Encrypt asm m dst src) = true ↔
      (src.len < 16 ∨ dst.len < 16 ∨
        ((∃ a, (dst.upTo 16).has a ∧ (src.upTo 16).has a) ∧ dst.ptr ≠ src.ptr)))
    ∧ (panics (c.Decrypt asm m dst src) = true ↔
      (src.len < 16 ∨ dst.len < 16 ∨
        ((∃ a, (dst.upTo 16).has a ∧ (src.upTo 16).has a) ∧ dst.ptr ≠ src.ptr)))
    ∧ (¬ (src.len < 16 ∨ dst.len < 16 ∨
          ((∃ a, (dst.upTo 16).has a ∧ (src.upTo 16).has a) ∧ dst.ptr ≠ src.ptr)) →
        (∃ m1, c.Encrypt asm m dst src = .ok (c, m1))
          ∧ (∃ m2, c.Decrypt asm m dst src = .ok (c, m2))) := by
  obtain ⟨_, he, hd⟩ := newCipher_asm_inv tb key c hc
  have hen : c.enc ≠ [] := ne_nil_of_length_32 _ (by rw [he]; exact roundKeys_length tb key)
  have hdn : c.dec ≠ [] :=
    ne_nil_of_length_32 _ (by rw [hd, List.length_reverse]; exact roundKeys_length tb key)
  refine ⟨?_, ?_, ?_⟩
  · rw [Encrypt_eq_blockCall, panics_map]
    exact blockCall_panics_iff asm c.enc hen m dst src
  · rw [Decrypt_eq_blockCall, panics_map]
    exact blockCall_panics_iff asm c.dec hdn m dst src
  · intro hn
    have h1 := (blockCall_panics_iff asm c.enc hen m dst src).not.mpr hn
    have h2 := (blockCall_panics_iff asm c.dec hdn m dst src).not.mpr hn
    rw [Encrypt_eq_blockCall, Decrypt_eq_blockCall]
    constructor
    · cases hb : blockCall asm c.enc m dst src with
      | error e => simp [hb, panics] at h1
      | ok m1 => exact ⟨m1, rfl⟩
    · cases hb : blockCall asm c.dec m dst src with
      | error e => simp [hb, panics] at h2
      | ok m2 => exact ⟨m2, rfl⟩

/-- Instance of C3 on the sample instance: `dst = mem[4:20]`, `src = mem[0:16]`. -/
theorem misuse_fault_iff_witness :
    newCipher sampleTables true sampleKey = .ok (some (Block.asm sampleCipher), none)
    ∧ (panics (sampleCipher.Encrypt (encryptBlocksAsm sampleTables sampleIso) sampleMem
          { ptr := 4, len := 16 } { ptr := 0, len := 16 }) = true ↔
        ((16 : Nat) < 16 ∨ (16 : Nat) < 16 ∨
          ((∃ a, (Slice.upTo { ptr := 4, len := 16 } 16).has a
              ∧ (Slice.upTo { ptr := 0, len := 16 } 16).has a) ∧ (4 : Nat) ≠ 0))) :=
  ⟨newCipher_asm_ok sampleTables sampleKey rfl,
   (misuse_fault_iff sampleTables sampleKey sampleCipher
      (newCipher_asm_ok sampleTables sampleKey rfl)
      (encryptBlocksAsm sampleTables sampleIso) sampleMem
      { ptr := 4, len := 16 } { ptr := 0, len := 16 }).1⟩

/-- C4 (as stated, refuted): `dst = mem[0:32]` and `src = mem[16:48]` are both
at least 16 bytes long and share the bytes at addresses 16..31 but not the
others, yet `Encrypt` and `Decrypt` return normally, because only `dst[0:16]`
and `src[0:16]` are compared. -/
theorem overlap_rejection_counterexample :
    (∃ a, Slice.has { ptr := 0, len := 32 } a ∧ Slice.has { ptr := 16, len := 32 } a)
    ∧ (∃ a, Slice.has { ptr := 0, len := 32 } a ∧ ¬ Slice.has { ptr := 16, len := 32 } a)
    ∧ (∃ a, Slice.has { ptr := 16, len := 32 } a ∧ ¬ Slice.has { ptr := 0, len := 32 } a)
    ∧ panics (sampleCipher.Encrypt (encryptBlocksAsm sampleTables sampleIso) sampleMem
        { ptr := 0, len := 32 } { ptr := 16, len := 32 }) = false
    ∧ panics (sampleCipher.Decrypt (encryptBlocksAsm sampleTables sampleIso) sampleMem
        { ptr := 0, len := 32 } { ptr := 16, len := 32 }) = false :=
  ⟨⟨16, by decide⟩, ⟨0, by decide⟩, ⟨47, by decide⟩, by rfl, by rfl⟩

/-- C4 (amended): whenever `dst` and `src` are at least 16 bytes long and
their leading blocks `dst[0:16]` and `src[0:16]` share an address without
starting at the same address, `Encrypt` and `Decrypt` panic with the overlap
message, for every instance. -/
theorem leading_block_overlap_rejected (asm : AsmFn) (c : sm4CipherAsm) (m : Mem)
    (dst src : Slice) (hd : 16 ≤ dst.len) (hs : 16 ≤ src.len)
    (hshare : ∃ a, (dst.upTo 16).has a ∧ (src.upTo 16).has a) (hne : dst.ptr ≠ src.ptr) :
    c.Encrypt asm m dst src = .error "sm4: invalid buffer overlap"
    ∧ c.Decrypt asm m dst src = .error "sm4: invalid buffer overlap" := by
  have ho : InexactOverlap (dst.upTo 16) (src.upTo 16) = true :=
    (inexactOverlap_iff dst src).mpr ⟨hshare, hne⟩
  constructor
  · simp [sm4CipherAsm.Encrypt, BlockSize, Nat.not_lt.mpr hs, Nat.not_lt.mpr hd, ho]
  · simp [sm4CipherAsm.Decrypt, BlockSize, Nat.not_lt.mpr hs, Nat.not_lt.mpr hd, ho]

/-- Instance of the amended C4: `dst = mem[0:32]`, `src = mem[8:40]`. -/
theorem leading_block_overlap_rejected_witness :
    (16 ≤ (32 : Nat)) ∧ (16 ≤ (32 : Nat))
    ∧ (∃ a, (Slice.upTo { ptr := 0, len := 32 } 16).has a
          ∧ (Slice.upTo { ptr := 8, len := 32 } 16).has a)
    ∧ sampleCipher.Encrypt (encryptBlocksAsm sampleTables sampleIso) sampleMem
        { ptr := 0, len := 32 } { ptr := 8, len := 32 } = .error "sm4: invalid buffer overlap"
    ∧ sampleCipher.Decrypt (encryptBlocksAsm sampleTables sampleIso) sampleMem
        { ptr := 0, len := 32 } { ptr := 8, len := 32 } = .error "sm4: invalid buffer overlap" :=
  ⟨by decide, by decide, ⟨8, by decide⟩,
   leading_block_overlap_rejected (encryptBlocksAsm sampleTables sampleIso) sampleCipher sampleMem
     { ptr := 0, len := 32 } { ptr := 8, len := 32 } (by decide) (by decide) ⟨8, by decide⟩
     (by decide)⟩

/-- C7: when an `Encrypt` or `Decrypt` call returns, the instance (both
round-key arrays) is unchanged and memory is unchanged outside `dst[0:16]`:
in particular at every index of `dst` from 16 on and at every address of `src`
outside `dst[0:16]`. -/
theorem frame_only_dst_block (asm : AsmFn) (c c1 : sm4CipherAsm) (m m1 : Mem) (dst src : Slice)
    (h : c.Encrypt asm m dst src = .ok (c1, m1) ∨ c.Decrypt asm m dst src = .ok (c1, m1)) :
    c1 = c ∧ c1.enc = c.enc ∧ c1.dec = c.dec
    ∧ (∀ a, ¬ (dst.upTo 16).has a → m1 a = m a)
    ∧ (∀ i, 16 ≤ i → m1 (dst.ptr + i) = m (dst.ptr + i))
    ∧ (∀ a, src.has a → ¬ (dst.upTo 16).has a → m1 a = m a) := by
  have key : ∃ xk, blockCall asm xk m dst src = .ok m1 ∧ c1 = c := by
    rcases h with h | h
    · rw [Encrypt_eq_blockCall] at h
      refine ⟨c.enc, ?_⟩
      cases hb : blockCall asm c.enc m dst src with
      | error e => rw [hb] at h; simp [Except.map] at h
      | ok m2 =>
        rw [hb] at h
        simp only [Except.map, Except.ok.injEq, Prod.mk.injEq] at h
        exact ⟨by rw [h.2], h.1.symm⟩
    · rw [Decrypt_eq_blockCall] at h
      refine ⟨c.dec, ?_⟩
      cases hb : blockCall asm c.dec m dst src with
      | error e => rw [hb] at h; simp [Except.map] at h
      | ok m2 =>
        rw [hb] at h
        simp only [Except.map, Except.ok.injEq, Prod.mk.injEq] at h
        exact ⟨by rw [h.2], h.1.symm⟩
  obtain ⟨xk, hb, hc⟩ := key
  have hf := blockCall_frame asm xk m m1 dst src hb
  refine ⟨hc, by rw [hc], by rw [hc], hf, ?_, fun a _ ha => hf a ha⟩
  intro i hi
  apply hf
  simp only [Slice.has, Slice.upTo]
  omega

/-- Instance of C7: a returning `Encrypt` call with `dst = mem[100:120]`. -/
theorem frame_only_dst_block_witness :
    (sampleCipher.Encrypt (encryptBlocksAsm sampleTables sampleIso) sampleMem
        { ptr := 100, len := 20 } { ptr := 0, len := 20 }
      = .ok (sampleCipher, sampleMem.copyTo { ptr := 100, len := 20 }
          ((goCopy (make 64) (encryptBlocksAsm sampleTables sampleIso sampleCipher.enc
            (packSrc64 sampleMem { ptr := 0, len := 20 }))).take 16)))
    ∧ (∀ i, 16 ≤ i →
        sampleMem.copyTo { ptr := 100, len := 20 }
          ((goCopy (make 64) (encryptBlocksAsm sampleTables sampleIso sampleCipher.enc
            (packSrc64 sampleMem { ptr := 0, len := 20 }))).take 16) (100 + i)
        = sampleMem (100 + i)) :=
  ⟨by rfl,
   (frame_only_dst_block (encryptBlocksAsm sampleTables sampleIso) sampleCipher sampleCipher
      sampleMem _ { ptr := 100, len := 20 } { ptr := 0, len := 20 } (Or.inl (by rfl))).2.2.2.2.1⟩

/-- C10: `Decrypt` on an instance is `Encrypt` on the instance with the two
key sets exchanged: same checks, same packing, same assembly call and same
unpacking, with `c.dec` handed to the routine; the receiver itself is what
each call returns. -/
theorem decrypt_is_mirrored_encrypt (asm : AsmFn) (c : sm4CipherAsm) (m : Mem)
    (dst src : Slice) :
    c.Decrypt asm m dst src
      = (c.mirror.Encrypt asm m dst src).map (fun r => (c, r.2)) := by
  rw [Decrypt_eq_blockCall, Encrypt_eq_blockCall]
  simp only [sm4CipherAsm.mirror, sm4CipherAsm.enc, sm4CipherAsm.dec]
  cases blockCall asm c.toCipher.dec m dst src <;> rfl

/-- C9 (the code at the failing input): for a 32-byte `src` the buffer handed
to the assembly routine holds `src[16]`, here 91, at index 16 and `src[31]`,
here 134, at index 31, not zero; a routine that returns lane 1 of its source
makes `Encrypt` store that byte at `dst[0]`. -/
theorem pack_copies_beyond_block :
    (packSrc64 sampleMem { ptr := 0, len := 32 }).getD 16 0 = 91
    ∧ (packSrc64 sampleMem { ptr := 0, len := 32 }).getD 31 0 = 134
    ∧ (packSrc64 sampleMem { ptr := 0, len := 32 }).getD 32 0 = 0
    ∧ sampleMem 16 = 91
    ∧ (sampleCipher.Encrypt probeLane1 sampleMem { ptr := 100, len := 16 }
        { ptr := 0, len := 32 }).map (fun r => r.2 100) = .ok 91 := by
  refine ⟨by rfl, by rfl, by rfl, by rfl, by rfl⟩

/-- C8 (as stated, refuted): on the accelerated path `newCipher` does not
return an error value for a 17-byte key. -/
theorem construction_error_counterexample :
    ¬ ∃ e, newCipher sampleTables true (sampleKey ++ [0]) = .ok (none, some e) := by
  rintro ⟨e, h⟩
  simp [newCipher, sm4CipherAsm.enc, sm4CipherAsm.dec, expandKeyGo, sampleKey] at h

/-- C8 (amended): `newCipher` does not check the key length.  With
`supportsAES` set it never returns an error value: for every key it either
faults inside the key schedule or returns an accelerated instance with a nil
error and 32 round keys in each array.  With `supportsAES` clear its outcome
is that of `newCipherGeneric`. -/
theorem newCipher_no_length_check (tb : Tables) (key : List Nat) :
    (∀ e, newCipher tb true key ≠ .ok (none, some e))
    ∧ (panics (newCipher tb true key) = true
        ∨ ∃ c : sm4CipherAsm, newCipher tb true key = .ok (some (Block.asm c), none)
            ∧ c.enc.length = rounds ∧ c.dec.length = rounds)
    ∧ newCipher tb false key = newCipherGeneric tb key := by
  refine ⟨?_, ?_, by simp [newCipher]⟩
  · intro e h
    simp only [newCipher, Bool.not_true, Bool.false_eq_true, if_false] at h
    split at h <;> simp at h
  · simp only [newCipher, Bool.not_true, Bool.false_eq_true, if_false, sm4CipherAsm.enc,
      sm4CipherAsm.dec, expandKeyGo]
    by_cases hk : key.length = 16
    · right
      simp [hk, goCopy_length, make_length]
    · left
      simp [hk, panics]

/-- C1: when the accelerated substitution `A_out(AES_Sbox(A_in(x) + c_in)) +
c_out` agrees with the SM4 S-box on every byte, then for every 16-byte key
`newCipher` returns an instance on either path, and for every memory and all
buffers `Encrypt` on the accelerated instance has the same outcome and leaves
the same memory as `Encrypt` on the generic instance; likewise `Decrypt`. -/
theorem cross_backend_equivalence (tb : Tables) (iso : IsoTables)
    (hiso : ∀ x, x < 256 → tb.sbox x = accSub iso x)
    (key : List Nat) (hk : key.length = 16) (m : Mem) (dst src : Slice) :
    ∃ cA cG, newCipher tb true key = .ok (some (Block.asm cA), none)
      ∧ newCipher tb false key = .ok (some (Block.generic cG), none)
      ∧ ((Block.asm cA).Encrypt tb iso m dst src).map Prod.snd
          = ((Block.generic cG).Encrypt tb iso m dst src).map Prod.snd
      ∧ ((Block.asm cA).Decrypt tb iso m dst src).map Prod.snd
          = ((Block.generic cG).Decrypt tb iso m dst src).map Prod.snd := by
  refine ⟨_, _, newCipher_asm_ok tb key hk, newCipher_generic_ok tb key hk, ?_, ?_⟩
  · have hne : roundKeys tb key ≠ [] := ne_nil_of_length_32 _ (roundKeys_length tb key)
    simp only [Block.Encrypt]
    rw [Encrypt_eq_blockCall, generic_Encrypt_eq]
    simp only [sm4CipherAsm.enc]
    rw [blockCall_asm tb iso _ hne, blockResult_congr tb.sbox (accSub iso) hiso]
    cases blockResult (accSub iso) tb.rotBody (roundKeys tb key) m dst src <;> rfl
  · have hne : (roundKeys tb key).reverse ≠ [] :=
      ne_nil_of_length_32 _ (by rw [List.length_reverse]; exact roundKeys_length tb key)
    simp only [Block.Decrypt]
    rw [Decrypt_eq_blockCall, generic_Decrypt_eq]
    simp only [sm4CipherAsm.dec]
    rw [blockCall_asm tb iso _ hne, blockResult_congr tb.sbox (accSub iso) hiso]
    cases blockResult (accSub iso) tb.rotBody (roundKeys tb key).reverse m dst src <;> rfl

set_option maxRecDepth 1000000 in
/-- Instance of C1 on the sample tables, whose isomorphism identity is checked byte by byte. -/
theorem cross_backend_equivalence_witness :
    (∀ x, x < 256 → sampleTables.sbox x = accSub sampleIso x) ∧ sampleKey.length = 16
    ∧ ∃ cA cG, newCipher sampleTables true sampleKey = .ok (some (Block.asm cA), none)
      ∧ newCipher sampleTables false sampleKey = .ok (some (Block.generic cG), none)
      ∧ ((Block.asm cA).Encrypt sampleTables sampleIso sampleMem { ptr := 100, len := 16 }
            { ptr := 0, len := 16 }).map Prod.snd
          = ((Block.generic cG).Encrypt sampleTables sampleIso sampleMem { ptr := 100, len := 16 }
            { ptr := 0, len := 16 }).map Prod.snd
      ∧ ((Block.asm cA).Decrypt sampleTables sampleIso sampleMem { ptr := 100, len := 16 }
            { ptr := 0, len := 16 }).map Prod.snd
          = ((Block.generic cG).Decrypt sampleTables sampleIso sampleMem { ptr := 100, len := 16 }
            { ptr := 0, len := 16 }).map Prod.snd :=
  ⟨by decide, by rfl,
   cross_backend_equivalence sampleTables sampleIso (by decide) sampleKey (by rfl) sampleMem
     { ptr := 100, len := 16 } { ptr := 0, len := 16 }⟩

/-- C2: for every 16-byte key and either value of `supportsAES`, `newCipher`
returns an instance `c`; for buffers of at least 16 bytes without inexact
overlap, `c.Encrypt(mid, src)` returns, `c.Decrypt(out, mid)` on the resulting
memory returns, and the 16 bytes then found at `out` are the 16 bytes that
were at `src`. -/
theorem round_trip (tb : Tables) (iso : IsoTables) (supportsAES : Bool) (key : List Nat)
    (hk : key.length = 16) (m : Mem) (src mid out : Slice)
    (hs : 16 ≤ src.len) (hm : 16 ≤ mid.len) (ho : 16 ≤ out.len)
    (h1 : InexactOverlap (mid.upTo 16) (src.upTo 16) = false)
    (h2 : InexactOverlap (out.upTo 16) (mid.upTo 16) = false)
    (hb : ∀ i, i < 16 → m (src.ptr + i) < 256) :
    ∃ c m1 m2, newCipher tb supportsAES key = .ok (some c, none)
      ∧ c.Encrypt tb iso m mid src = .ok (c, m1)
      ∧ c.Decrypt tb iso m1 out mid = .ok (c, m2)
      ∧ ∀ i, i < 16 → m2 (out.ptr + i) = m (src.ptr + i) := by
  have hlen := roundKeys_length tb key
  have hne : roundKeys tb key ≠ [] := ne_nil_of_length_32 _ hlen
  have hne2 : (roundKeys tb key).reverse ≠ [] :=
    ne_nil_of_length_32 _ (by rw [List.length_reverse]; exact hlen)
  cases supportsAES with
  | true =>
    obtain ⟨m1, m2, e1, e2, e3⟩ := blockResult_round_trip (accSub iso) tb.rotBody
      (roundKeys tb key) hlen m src mid out hs hm ho h1 h2 hb
    refine ⟨_, m1, m2, newCipher_asm_ok tb key hk, ?_, ?_, e3⟩
    · simp only [Block.Encrypt]
      rw [Encrypt_eq_blockCall]
      simp only [sm4CipherAsm.enc]
      rw [blockCall_asm tb iso _ hne, e1]
      rfl
    · simp only [Block.Decrypt]
      rw [Decrypt_eq_blockCall]
      simp only [sm4CipherAsm.dec]
      rw [blockCall_asm tb iso _ hne2, e2]
      rfl
  | false =>
    obtain ⟨m1, m2, e1, e2, e3⟩ := blockResult_round_trip tb.sbox tb.rotBody
      (roundKeys tb key) hlen m src mid out hs hm ho h1 h2 hb
    refine ⟨_, m1, m2, newCipher_generic_ok tb key hk, ?_, ?_, e3⟩
    · simp only [Block.Encrypt]
      rw [generic_Encrypt_eq, e1]
      rfl
    · simp only [Block.Decrypt]
      rw [generic_Decrypt_eq, e2]
      rfl

/-- Instance of C2: encrypt `mem[0:16]` into `mem[100:116]`, then decrypt in place. -/
theorem round_trip_witness :
    sampleKey.length = 16
    ∧ InexactOverlap (Slice.upTo { ptr := 100, len := 16 } 16)
        (Slice.upTo { ptr := 0, len := 20 } 16) = false
    ∧ (∀ i, i < 16 → sampleMem (0 + i) < 256)
    ∧ ∃ c m1 m2, newCipher sampleTables true sampleKey = .ok (some c, none)
      ∧ c.Encrypt sampleTables sampleIso sampleMem { ptr := 100, len := 16 }
          { ptr := 0, len := 20 } = .ok (c, m1)
      ∧ c.Decrypt sampleTables sampleIso m1 { ptr := 100, len := 16 }
          { ptr := 100, len := 16 } = .ok (c, m2)
      ∧ ∀ i, i < 16 → m2 (100 + i) = sampleMem (0 + i) :=
  ⟨by rfl, by rfl, fun i _ => Nat.mod_lt _ (by decide),
   round_trip sampleTables sampleIso true sampleKey (by rfl) sampleMem { ptr := 0, len := 20 }
     { ptr := 100, len := 16 } { ptr := 100, len := 16 } (by decide) (by decide) (by decide)
     (by rfl) (by rfl) (fun i _ => Nat.mod_lt _ (by decide))⟩

/-- C6: on an instance with round keys, two `Encrypt` calls (two `Decrypt`
calls) with valid buffers whose sources agree on their first 16 bytes both
return and leave the same 16 bytes at the start of their destinations,
whatever the rest of the two memories; and lane 0 of the output of the
assembly routine depends on lane 0 of its 64-byte source only. -/
theorem batch_padding_non_leak (tb : Tables) (iso : IsoTables) (c : sm4CipherAsm)
    (hc : c.enc ≠ [] ∧ c.dec ≠ []) (m1 m2 : Mem) (dst1 src1 dst2 src2 : Slice)
    (hs1 : 16 ≤ src1.len) (hd1 : 16 ≤ dst1.len) (hs2 : 16 ≤ src2.len) (hd2 : 16 ≤ dst2.len)
    (ho1 : InexactOverlap (dst1.upTo 16) (src1.upTo 16) = false)
    (ho2 : InexactOverlap (dst2.upTo 16) (src2.upTo 16) = false)
    (hagree : ∀ i, i < 16 → m1 (src1.ptr + i) = m2 (src2.ptr + i)) :
    (∃ r1 r2, c.Encrypt (encryptBlocksAsm tb iso) m1 dst1 src1 = .ok (c, r1)
        ∧ c.Encrypt (encryptBlocksAsm tb iso) m2 dst2 src2 = .ok (c, r2)
        ∧ ∀ i, i < 16 → r1 (dst1.ptr + i) = r2 (dst2.ptr + i))
    ∧ (∃ r1 r2, c.Decrypt (encryptBlocksAsm tb iso) m1 dst1 src1 = .ok (c, r1)
        ∧ c.Decrypt (encryptBlocksAsm tb iso) m2 dst2 src2 = .ok (c, r2)
        ∧ ∀ i, i < 16 → r1 (dst1.ptr + i) = r2 (dst2.ptr + i))
    ∧ (∀ xk b1 b2, lane b1 0 = lane b2 0 →
        lane (encryptBlocksAsm tb iso xk b1) 0 = lane (encryptBlocksAsm tb iso xk b2) 0) := by
  have hread : m1.read (src1.upTo 16) = m2.read (src2.upTo 16) :=
    Mem.read_congr m1 m2 _ _ rfl (fun i hi => hagree i hi)
  have core : ∀ xk, xk ≠ [] →
      ∃ r1 r2, blockCall (encryptBlocksAsm tb iso) xk m1 dst1 src1 = .ok r1
        ∧ blockCall (encryptBlocksAsm tb iso) xk m2 dst2 src2 = .ok r2
        ∧ ∀ i, i < 16 → r1 (dst1.ptr + i) = r2 (dst2.ptr + i) := by
    intro xk hx
    refine ⟨m1.write dst1.ptr (cryptBlock (accSub iso) tb.rotBody xk (m1.read (src1.upTo 16))),
      m2.write dst2.ptr (cryptBlock (accSub iso) tb.rotBody xk (m2.read (src2.upTo 16))),
      ?_, ?_, ?_⟩
    · rw [blockCall_asm tb iso xk hx]; exact blockResult_ok _ _ _ m1 dst1 src1 hs1 hd1 ho1
    · rw [blockCall_asm tb iso xk hx]; exact blockResult_ok _ _ _ m2 dst2 src2 hs2 hd2 ho2
    · intro i hi
      rw [Mem.write_inside _ _ _ i (by rw [cryptBlock_length]; exact hi),
        Mem.write_inside _ _ _ i (by rw [cryptBlock_length]; exact hi), hread]
  refine ⟨?_, ?_, ?_⟩
  · obtain ⟨r1, r2, e1, e2, e3⟩ := core c.enc hc.1
    exact ⟨r1, r2, by rw [Encrypt_eq_blockCall, e1]; rfl, by rw [Encrypt_eq_blockCall, e2]; rfl, e3⟩
  · obtain ⟨r1, r2, e1, e2, e3⟩ := core c.dec hc.2
    exact ⟨r1, r2, by rw [Decrypt_eq_blockCall, e1]; rfl, by rw [Decrypt_eq_blockCall, e2]; rfl, e3⟩
  · intro xk b1 b2 hl
    have h16 : ∀ b, lane (encryptBlocksAsm tb iso xk b) 0
        = cryptBlock (accSub iso) tb.rotBody xk (lane b 0) := by
      intro b
      rw [lane_zero]
      simp only [encryptBlocksAsm, List.append_assoc]
      rw [List.take_append_of_le_length (by rw [cryptBlock_length])]
      exact List.take_of_length_le (by rw [cryptBlock_length])
    rw [h16, h16, hl]

/-- Instance of C6: two memories and two source buffers of different lengths with the same leading block. -/
theorem batch_padding_non_leak_witness :
    (sampleCipher.enc ≠ [] ∧ sampleCipher.dec ≠ [])
    ∧ (∀ i, i < 16 → sampleMem (0 + i) = (fun a => sampleMem (a % 256)) (256 + i))
    ∧ ∃ r1 r2, sampleCipher.Encrypt (encryptBlocksAsm sampleTables sampleIso) sampleMem
          { ptr := 100, len := 16 } { ptr := 0, len := 64 } = .ok (sampleCipher, r1)
        ∧ sampleCipher.Encrypt (encryptBlocksAsm sampleTables sampleIso)
          (fun a => sampleMem (a % 256)) { ptr := 300, len := 40 } { ptr := 256, len := 16 }
            = .ok (sampleCipher, r2)
        ∧ ∀ i, i < 16 → r1 (100 + i) = r2 (300 + i) :=
  ⟨⟨by decide, by decide⟩, fun i hi => by simp [Nat.add_mod, Nat.mod_eq_of_lt (show i < 256 by omega)],
   (batch_padding_non_leak sampleTables sampleIso sampleCipher ⟨by decide, by decide⟩ sampleMem
      (fun a => sampleMem (a % 256)) { ptr := 100, len := 16 } { ptr := 0, len := 64 }
      { ptr := 300, len := 40 } { ptr := 256, len := 16 } (by decide) (by decide) (by decide)
      (by decide) (by rfl) (by rfl)
      (fun i hi => by simp [Nat.add_mod, Nat.mod_eq_of_lt (show i < 256 by omega)])).1⟩

/-- C5: for every instance and every buffer `buf` of at least 16 bytes,
`Encrypt(buf, buf)` has the same outcome and leaves the same bytes in `buf` as
`Encrypt(tmp, buf)` into a separate 16-byte `tmp` followed by
`copy(buf, tmp)`; likewise `Decrypt`. -/
theorem in_place_safety (asm : AsmFn) (c : sm4CipherAsm) (m : Mem) (buf tmp : Slice)
    (hb : 16 ≤ buf.len) (ht : tmp.len = 16) (hsep : ∀ a, ¬ (buf.has a ∧ tmp.has a)) :
    (c.Encrypt asm m buf buf).map (fun r => r.2.read buf)
        = (c.Encrypt asm m tmp buf).map (fun r => (r.2.copyTo buf (r.2.read tmp)).read buf)
    ∧ (c.Decrypt asm m buf buf).map (fun r => r.2.read buf)
        = (c.Decrypt asm m tmp buf).map (fun r => (r.2.copyTo buf (r.2.read tmp)).read buf) := by
  have hself : InexactOverlap (buf.upTo 16) (buf.upTo 16) = false := by
    simp [InexactOverlap, Slice.upTo]
  have htmp : InexactOverlap (tmp.upTo 16) (buf.upTo 16) = false := by
    cases h : InexactOverlap (tmp.upTo 16) (buf.upTo 16) with
    | false => rfl
    | true =>
      obtain ⟨⟨a, ha1, ha2⟩, _⟩ := (inexactOverlap_iff tmp buf).mp h
      simp only [Slice.has, Slice.upTo] at ha1 ha2
      exact absurd ⟨⟨ha2.1, by omega⟩, ⟨ha1.1, by omega⟩⟩ (hsep a)
  have core : ∀ xk, (blockCall asm xk m buf buf).map (fun r => r.read buf)
      = (blockCall asm xk m tmp buf).map (fun r => (r.copyTo buf (r.read tmp)).read buf) := by
    intro xk
    by_cases hx : xk = []
    · subst hx
      simp [blockCall, Nat.not_lt.mpr hb, ht, hself, htmp, Except.map]
    · rw [blockCall_ok asm xk hx m buf buf hb hb hself,
        blockCall_ok asm xk hx m tmp buf hb (by omega) htmp]
      simp only [Except.map, Except.ok.injEq]
      have hlen : ((goCopy (make 64) (asm xk (packSrc64 m buf))).take 16).length = 16 := by
        simp [goCopy_length, make_length]
      generalize (goCopy (make 64) (asm xk (packSrc64 m buf))).take 16 = blk at hlen
      rw [copyTo_block m buf blk hlen hb, copyTo_block m tmp blk hlen (by omega)]
      have htmp16 : tmp = tmp.upTo 16 := by
        cases tmp; simp only [Slice.upTo] at *; simp [ht]
      have hrd : (m.write tmp.ptr blk).read tmp = blk := by
        conv_lhs => rw [htmp16]
        exact read_write_block m tmp blk hlen
      rw [hrd, copyTo_block _ buf blk hlen hb]
      apply Mem.read_congr _ _ _ _ rfl
      intro i hi
      by_cases h16 : i < 16
      · rw [Mem.write_inside _ _ _ i (by omega), Mem.write_inside _ _ _ i (by omega)]
      · rw [Mem.write_outside _ _ _ _ (by omega), Mem.write_outside _ _ _ _ (by omega)]
        rw [Mem.write_outside]
        intro hin
        exact hsep (buf.ptr + i) ⟨⟨by omega, by omega⟩, ⟨hin.1, by omega⟩⟩
  constructor
  · rw [Encrypt_eq_blockCall, Encrypt_eq_blockCall]
    have := core c.enc
    cases h1 : blockCall asm c.enc m buf buf <;> cases h2 : blockCall asm c.enc m tmp buf <;>
      simp_all [Except.map]
  · rw [Decrypt_eq_blockCall, Decrypt_eq_blockCall]
    have := core c.dec
    cases h1 : blockCall asm c.dec m buf buf <;> cases h2 : blockCall asm c.dec m tmp buf <;>
      simp_all [Except.map]

/-- Instance of C5: `buf = mem[0:32]`, `tmp = mem[100:116]`. -/
theorem in_place_safety_witness :
    (16 ≤ (32 : Nat)) ∧ (16 : Nat) = 16
    ∧ (sampleCipher.Encrypt (encryptBlocksAsm sampleTables sampleIso) sampleMem
          { ptr := 0, len := 32 } { ptr := 0, len := 32 }).map
          (fun r => r.2.read { ptr := 0, len := 32 })
        = (sampleCipher.Encrypt (encryptBlocksAsm sampleTables sampleIso) sampleMem
          { ptr := 100, len := 16 } { ptr := 0, len := 32 }).map
          (fun r => (r.2.copyTo { ptr := 0, len := 32 }
            (r.2.read { ptr := 100, len := 16 })).read { ptr := 0, len := 32 }) :=
  ⟨by decide, rfl,
   (in_place_safety (encryptBlocksAsm sampleTables sampleIso) sampleCipher sampleMem
      { ptr := 0, len := 32 } { ptr := 100, len := 16 } (by decide) rfl
      (fun a h => by simp only [Slice.has] at h; omega)).1⟩

end SM4
